import Mathlib

set_option maxRecDepth 100000

/-!
Verification of the tree-reconciliation and branch-publishing engine of
`agenttools/github_pr.py`, shallowly embedded in Lean 4.

Conventions of the embedding:
* Byte strings are `List Nat` with every element `< 256`.
* Decoded text is a `List Nat` of Unicode code points.
* Python dicts (`local_map`, `remote_map`) are association lists in
  insertion order; dict-key uniqueness is an explicit `Nodup` hypothesis
  where a statement needs it.
* Fallible functions return `Except String`.
-/

/-- Left rotation of a 32-bit word, as used by the SHA-1 rounds. -/
def rotl32 (n x : Nat) : Nat :=
  ((x <<< n) ||| (x >>> (32 - n))) % 4294967296

/-- Big-endian byte serialisation of `n` into `k` bytes. -/
def beBytes (k n : Nat) : List Nat :=
  match k with
  | 0 => []
  | k + 1 => beBytes k (n / 256) ++ [n % 256]

/-- SHA-1 padding: append `0x80`, zero bytes, and the 64-bit big-endian
bit length, reaching a multiple of 64 bytes (`hashlib.sha1` input layout). -/
def sha1Pad (msg : List Nat) : List Nat :=
  msg ++ [128] ++ List.replicate ((119 - msg.length % 64) % 64) 0
      ++ beBytes 8 (8 * msg.length)

/-- Split a byte list into successive 64-byte chunks (fuel-driven so the
definition reduces by kernel computation). -/
def chunks64Aux : Nat → List Nat → List (List Nat)
  | 0, _ => []
  | _, [] => []
  | fuel + 1, a :: l => ((a :: l).take 64) :: chunks64Aux fuel ((a :: l).drop 64)

/-- Split a byte list into successive 64-byte chunks. -/
def chunks64 (l : List Nat) : List (List Nat) :=
  chunks64Aux l.length l

/-- The sixteen 32-bit big-endian words of one 64-byte block. -/
def wordsOf (block : List Nat) : List Nat :=
  (List.range 16).map fun i =>
    block.getD (4 * i) 0 * 16777216 + block.getD (4 * i + 1) 0 * 65536
      + block.getD (4 * i + 2) 0 * 256 + block.getD (4 * i + 3) 0

/-- Extend the 16 schedule words by `n` further words (`w[i-3] ⊕ w[i-8] ⊕
w[i-14] ⊕ w[i-16]` rotated left by one). -/
def sha1Extend (w : List Nat) : Nat → List Nat
  | 0 => w
  | n + 1 =>
    let v := sha1Extend w n
    let m := v.length
    v ++ [rotl32 1 (v.getD (m - 3) 0 ^^^ v.getD (m - 8) 0
                     ^^^ v.getD (m - 14) 0 ^^^ v.getD (m - 16) 0)]

/-- SHA-1 round function (choice / parity / majority / parity). -/
def sha1F (t b c d : Nat) : Nat :=
  if t < 20 then (b &&& c) ||| ((b ^^^ 4294967295) &&& d)
  else if t < 40 then b ^^^ c ^^^ d
  else if t < 60 then (b &&& c) ||| (b &&& d) ||| (c &&& d)
  else b ^^^ c ^^^ d

/-- SHA-1 round constants. -/
def sha1K (t : Nat) : Nat :=
  if t < 20 then 1518500249
  else if t < 40 then 1859775393
  else if t < 60 then 2400959708
  else 3395469782

/-- One SHA-1 round on the five-word state. -/
def sha1Round (w : List Nat) (st : Nat × Nat × Nat × Nat × Nat) (t : Nat) :
    Nat × Nat × Nat × Nat × Nat :=
  let (a, b, c, d, e) := st
  let temp := (rotl32 5 a + sha1F t b c d + e + sha1K t + w.getD t 0) % 4294967296
  (temp, a, rotl32 30 b, c, d)

/-- Compress one 64-byte block into the running hash state. -/
def sha1Block (h : Nat × Nat × Nat × Nat × Nat) (block : List Nat) :
    Nat × Nat × Nat × Nat × Nat :=
  let w := sha1Extend (wordsOf block) 64
  let (h0, h1, h2, h3, h4) := h
  let (a, b, c, d, e) := (List.range 80).foldl (sha1Round w) h
  ((h0 + a) % 4294967296, (h1 + b) % 4294967296, (h2 + c) % 4294967296,
   (h3 + d) % 4294967296, (h4 + e) % 4294967296)

/-- SHA-1 digest of a byte string, as 20 bytes. -/
def sha1Bytes (msg : List Nat) : List Nat :=
  let (h0, h1, h2, h3, h4) :=
    (chunks64 (sha1Pad msg)).foldl sha1Block
      (1732584193, 4023233417, 2562383102, 271733878, 3285377520)
  beBytes 4 h0 ++ beBytes 4 h1 ++ beBytes 4 h2 ++ beBytes 4 h3 ++ beBytes 4 h4

/-- Lower-case hexadecimal digit. -/
def hexDigit (n : Nat) : Char :=
  if n < 10 then Char.ofNat (48 + n) else Char.ofNat (87 + n)

/-- Lower-case hexadecimal rendering of a byte string. -/
def bytesToHex (bs : List Nat) : String :=
  String.mk (bs.flatMap fun b => [hexDigit (b / 16), hexDigit (b % 16)])

/-- Model of `hashlib.sha1(msg).hexdigest()`. -/
def sha1Hex (msg : List Nat) : String :=
  bytesToHex (sha1Bytes msg)

/-- UTF-8/ASCII bytes of a Lean string all of whose characters are ASCII;
used only on literals such as `"blob "`. -/
def asciiBytes (s : String) : List Nat :=
  s.data.map Char.toNat

/-- ASCII decimal digits of a natural number, fuel-driven
(`n + 1` units of fuel always suffice since a number has at most
`n + 1` decimal digits). -/
def natDecimalAux : Nat → Nat → List Nat
  | 0, _ => []
  | fuel + 1, n =>
    if n < 10 then [48 + n]
    else natDecimalAux fuel (n / 10) ++ [48 + n % 10]

/-- ASCII decimal digits of a natural number, as bytes
(the rendering of `len(data)` inside the f-string). -/
def natDecimalBytes (n : Nat) : List Nat :=
  natDecimalAux (n + 1) n

/-- The length-prefixed git blob header `f"blob {len(data)}\0".encode("utf-8")`
from `push_tree_via_api`. -/
def blobHeader (data : List Nat) : List Nat :=
  asciiBytes "blob " ++ natDecimalBytes data.length ++ [0]

/-- Model of `hashlib.sha1(header + data).hexdigest()` — the git blob content hash
computed for every local file in `push_tree_via_api`. -/
def gitBlobSha (data : List Nat) : String :=
  sha1Hex (blobHeader data ++ data)

/-- The base64 alphabet (RFC 4648), indexed 0–63. -/
def b64Char (n : Nat) : Char :=
  if n < 26 then Char.ofNat (65 + n)
  else if n < 52 then Char.ofNat (97 + (n - 26))
  else if n < 62 then Char.ofNat (48 + (n - 52))
  else if n = 62 then Char.ofNat 43
  else Char.ofNat 47

/-- Model of `base64.b64encode(data).decode("utf-8")`: standard base64 with padding. -/
def base64Chars : List Nat → List Char
  | [] => []
  | [a] =>
    [b64Char (a / 4), b64Char (a % 4 * 16), Char.ofNat 61, Char.ofNat 61]
  | [a, b] =>
    [b64Char (a / 4), b64Char (a % 4 * 16 + b / 16), b64Char (b % 16 * 4),
     Char.ofNat 61]
  | a :: b :: c :: rest =>
    b64Char (a / 4) :: b64Char (a % 4 * 16 + b / 16)
      :: b64Char (b % 16 * 4 + c / 64) :: b64Char (c % 64) :: base64Chars rest

/-- Base64 encoding as a string. -/
def base64Encode (data : List Nat) : String :=
  String.mk (base64Chars data)

/-! ## Reconciliation planner and tree publisher (`push_tree_via_api`) -/

/-- A value of the local map built by the working-tree walk:
`{"sha": ..., "bytes": ...}`. -/
structure LocalFile where
  sha : String
  bytes : List Nat
deriving DecidableEq, Repr

/-- Dictionary lookup in an insertion-ordered association list
(`path in d` / `d.get(path)` on a Python dict). -/
def alistLookup {β : Type} (m : List (String × β)) (k : String) : Option β :=
  match m with
  | [] => none
  | (k1, v) :: rest => if k1 = k then some v else alistLookup rest k

/-- Indexing `local_map[path]` where the caller guarantees the key is present
(Python dict indexing). -/
def localGet (m : List (String × LocalFile)) (k : String) : LocalFile :=
  (alistLookup m k).getD ⟨"", []⟩

/-- Building `local_map[rel] = {"sha": git_blob_sha(data), "bytes": data}` for each
walked file, in walk order. -/
def mkLocalMap (files : List (String × List Nat)) : List (String × LocalFile) :=
  files.map fun pd => (pd.1, ⟨gitBlobSha pd.2, pd.2⟩)

/-- The `adds` list: local paths absent from the remote map, in local
insertion order. -/
def planAdds (localMap : List (String × LocalFile))
    (remoteMap : List (String × String)) : List String :=
  (localMap.filter fun pv => (alistLookup remoteMap pv.1).isNone).map Prod.fst

/-- The `updates` list: local paths present remotely with a different blob
hash, in local insertion order. -/
def planUpdates (localMap : List (String × LocalFile))
    (remoteMap : List (String × String)) : List String :=
  (localMap.filter fun pv =>
    match alistLookup remoteMap pv.1 with
    | some s => s != pv.2.sha
    | none => false).map Prod.fst

/-- The `deletes` list: remote paths absent locally, in remote order. -/
def planDeletes (localMap : List (String × LocalFile))
    (remoteMap : List (String × String)) : List String :=
  (remoteMap.filter fun pv => (alistLookup localMap pv.1).isNone).map Prod.fst

/-- JSON payload of a contents `PUT`:
`{"message": ..., "content": b64, "branch": ..., "sha"?: ...}`. -/
structure PutPayload where
  message : String
  content : String
  branch : String
  sha : Option String
deriving DecidableEq, Repr

/-- JSON payload of a contents `DELETE`:
`{"message": ..., "branch": ..., "sha": ...}` (`sha` may be JSON null). -/
structure DelPayload where
  message : String
  branch : String
  sha : Option String
deriving DecidableEq, Repr

/-- A mutating remote call issued by the publisher. -/
inductive Request where
  | createRef (ref : String) (sha : String)
  | putContents (path : String) (payload : PutPayload)
  | deleteContents (path : String) (payload : DelPayload)
deriving DecidableEq, Repr

/-- An entry of the returned `operations` list of `push_tree_via_api`.
Dry-run entries record the intended payload; live entries record the
remote response (modelled opaquely). -/
inductive RecOp where
  | createRefDry (ref : String) (fromSha : String)
  | createRefLive (ref : String)
  | putDry (path : String) (payload : PutPayload)
  | putLive (path : String)
  | delDry (path : String) (payload : DelPayload)
  | delLive (path : String)
deriving DecidableEq, Repr

/-- The `"op"` string and `"path"` key of a recorded operation
(`create_ref` entries carry a `"ref"`, not a `"path"`). -/
def RecOp.kindPath : RecOp → String × Option String
  | .createRefDry _ _ => ("create_ref", none)
  | .createRefLive _ => ("create_ref", none)
  | .putDry p _ => ("add_or_update", some p)
  | .putLive p => ("add_or_update", some p)
  | .delDry p _ => ("delete", some p)
  | .delLive p => ("delete", some p)

/-- The mutating call a dry-run record stands for (none for live records). -/
def RecOp.intended : RecOp → Option Request
  | .createRefDry r s => some (.createRef r s)
  | .putDry p pl => some (.putContents p pl)
  | .delDry p pl => some (.deleteContents p pl)
  | _ => none

/-- The `PUT` payload built for path `path` in the add/update loop of
`push_tree_via_api`: the token `sha` is present exactly when the path is in
the base-branch tree snapshot `remote_map`. -/
def treePutPayload (head : String) (localMap : List (String × LocalFile))
    (remoteMap : List (String × String)) (path : String) : PutPayload :=
  { message := "Add/Update " ++ path
    content := base64Encode (localGet localMap path).bytes
    branch := head
    sha := alistLookup remoteMap path }

/-- The `DELETE` payload built for path `path` in the delete loop of
`push_tree_via_api` (`sha = remote_map.get(path)`). -/
def treeDelPayload (head : String) (remoteMap : List (String × String))
    (path : String) : DelPayload :=
  { message := "Delete " ++ path, branch := head
    sha := alistLookup remoteMap path }

/-- The operation-recording and request-issuing behaviour of
`push_tree_via_api` after the remote tree has been read: `headExists` is the
outcome of the head-ref probe, `dryRun` the mode. Returns the recorded
`operations` list and the mutating remote calls issued, in program order. -/
def pushTreeOps (localMap : List (String × LocalFile))
    (remoteMap : List (String × String)) (head baseCommitSha : String)
    (headExists dryRun : Bool) : List RecOp × List Request :=
  let refPart : List RecOp × List Request :=
    if headExists then ([], [])
    else if dryRun then ([.createRefDry head baseCommitSha], [])
    else ([.createRefLive head], [.createRef head baseCommitSha])
  let auPaths := planAdds localMap remoteMap ++ planUpdates localMap remoteMap
  let delPaths := planDeletes localMap remoteMap
  let auPart : List RecOp × List Request :=
    if dryRun then
      (auPaths.map fun path => .putDry path (treePutPayload head localMap remoteMap path), [])
    else
      (auPaths.map fun path => .putLive path,
       auPaths.map fun path => .putContents path (treePutPayload head localMap remoteMap path))
  let delPart : List RecOp × List Request :=
    if dryRun then
      (delPaths.map fun path => .delDry path (treeDelPayload head remoteMap path), [])
    else
      (delPaths.map fun path => .delLive path,
       delPaths.map fun path => .deleteContents path (treeDelPayload head remoteMap path))
  (refPart.1 ++ auPart.1 ++ delPart.1, refPart.2 ++ auPart.2 ++ delPart.2)

/-! ## Name-status classifier and branch publisher (`push_branch_via_api`) -/

deriving instance DecidableEq for Except

/-- ASCII whitespace, the characters `str.strip()` removes (its further
Unicode whitespace does not occur in name-status output). -/
def pySpace (c : Char) : Bool :=
  c = ' ' ∨ c = Char.ofNat 9 ∨ c = Char.ofNat 10 ∨ c = Char.ofNat 13
    ∨ c = Char.ofNat 11 ∨ c = Char.ofNat 12

/-- Model of `str.split(sep)` for a one-character separator: the pieces between
occurrences of `sep`, empty pieces kept. -/
def splitOnChar (sep : Char) : List Char → List (List Char)
  | [] => [[]]
  | c :: rest =>
    let r := splitOnChar sep rest
    if c = sep then [] :: r
    else
      match r with
      | [] => [[c]]
      | h :: t => (c :: h) :: t

/-- Does the list start with character `c`? (`str.startswith`, one char.) -/
def startsWithChar (c : Char) : List Char → Bool
  | [] => false
  | x :: _ => x = c

/-- The per-line classification of the `git diff --name-status` loop:
blank lines are skipped; otherwise split on tabs; `R*` lines become
delete-old + add-new; `A`/`M` become an add, `D` a delete; anything else
(or a malformed line) yields nothing. -/
def lineActions (line : List Char) : List (String × String) :=
  if line.all pySpace then []
  else
    match splitOnChar (Char.ofNat 9) line with
    | [] => []
    | status :: rest =>
      if startsWithChar 'R' status then
        match rest with
        | old_path :: new_path :: _ =>
          [("delete", String.mk old_path), ("add", String.mk new_path)]
        | _ => []
      else
        match rest with
        | path :: _ =>
          if status = ['A'] ∨ status = ['M'] then [("add", String.mk path)]
          else if status = ['D'] then [("delete", String.mk path)]
          else []
        | [] => []

/-- Result of `GET contents/<path>?ref=<branch>`: HTTP status plus the
`sha` field of the body when the status is 200. -/
structure ContentResp where
  status : Nat
  sha : String
deriving DecidableEq, Repr

/-- The external collaborators of `push_branch_via_api`'s apply loop:
the contents endpoint (queried with `ref` = a branch name) and the local
filesystem. -/
structure BranchEnv where
  contents : String → String → ContentResp
  localFile : String → Option (List Nat)

/-- A remote call issued by the `push_branch_via_api` apply loop,
including the content reads. -/
inductive BranchReq where
  | getContents (ref path : String)
  | putContents (path : String) (payload : PutPayload)
  | deleteContents (path : String) (payload : DelPayload)
deriving DecidableEq, Repr

/-- An entry of the `operations` list of `push_branch_via_api`:
`response` is `none` exactly when the recorded JSON response is null. -/
structure BRecOp where
  op : String
  path : String
  response : Option Unit
deriving DecidableEq, Repr

/-- Apply one `("delete", path)` or `("add", path)` action on branch `head`:
deletes probe the contents endpoint on `head` and are skipped (recorded with
a null response) unless it answers 200; adds read the local file (erroring
if absent), base64-encode it, probe the contents endpoint on `head`, and
attach its `sha` as the write token only on a 200 answer. -/
def applyAction (env : BranchEnv) (head : String) (a : String × String) :
    Except String (List BRecOp × List BranchReq) :=
  let path := a.2
  if a.1 = "delete" then
    let q := env.contents head path
    if q.status = 200 then
      .ok ([⟨"delete", path, some ()⟩],
           [.getContents head path,
            .deleteContents path ⟨"Delete " ++ path, head, some q.sha⟩])
    else
      .ok ([⟨"delete", path, none⟩], [.getContents head path])
  else
    match env.localFile path with
    | none => .error ("Local file for add/update not found: " ++ path)
    | some data =>
      let b64 := base64Encode data
      let q := env.contents head path
      let payload : PutPayload :=
        { message := "Add/Update " ++ path, content := b64, branch := head
          sha := if q.status = 200 then some q.sha else none }
      .ok ([⟨"add_or_update", path, some ()⟩],
           [.getContents head path, .putContents path payload])

/-- Run a list of actions in order; the first error aborts the run
(the unhandled-exception behaviour of the Python loop). -/
def runActions (env : BranchEnv) (head : String) :
    List (String × String) → Except String (List BRecOp × List BranchReq)
  | [] => .ok ([], [])
  | a :: rest => do
    let (ops, reqs) ← applyAction env head a
    let (ops2, reqs2) ← runActions env head rest
    .ok (ops ++ ops2, reqs ++ reqs2)

/-- The whole `push_branch_via_api` apply phase: classify each name-status
line (each line given as its characters), then apply the resulting actions
in order. -/
def pushBranchFromLines (env : BranchEnv) (head : String)
    (lines : List (List Char)) : Except String (List BRecOp × List BranchReq) :=
  runActions env head (lines.flatMap lineActions)

/-! ## UTF-8, diff truncation and exit handling (`get_git_diff`) -/

/-- UTF-8 encoding of one Unicode code point (`str.encode("utf-8")`,
per character). -/
def utf8EncodeChar (c : Nat) : List Nat :=
  if c < 128 then [c]
  else if c < 2048 then [192 + c / 64, 128 + c % 64]
  else if c < 65536 then [224 + c / 4096, 128 + c / 64 % 64, 128 + c % 64]
  else [240 + c / 262144, 128 + c / 4096 % 64, 128 + c / 64 % 64, 128 + c % 64]

/-- UTF-8 encoding of a code-point sequence. -/
def utf8Encode (cs : List Nat) : List Nat :=
  cs.flatMap utf8EncodeChar

/-- Is `b` a UTF-8 continuation byte? -/
def contOk (b : Nat) : Bool :=
  128 ≤ b ∧ b ≤ 191

/-- Lower bound of the first continuation byte after lead `b` (tightened
for `0xE0`/`0xF0` to exclude overlong encodings). -/
def cont1Lo (b : Nat) : Nat :=
  if b = 224 then 160 else if b = 240 then 144 else 128

/-- Upper bound of the first continuation byte after lead `b` (tightened
for `0xED` to exclude surrogates and `0xF4` to stay below `U+110000`). -/
def cont1Hi (b : Nat) : Nat :=
  if b = 237 then 159 else if b = 244 then 143 else 191

/-- UTF-8 decoding with error handling: each maximal invalid subpart is
replaced by `repl` (`bytes.decode("utf-8", errors="ignore")` for
`repl = []`, `errors="replace"` for `repl = [0xFFFD]`). -/
def decodeWith (repl : List Nat) : List Nat → List Nat
  | [] => []
  | b :: rest =>
    if b < 128 then b :: decodeWith repl rest
    else if 194 ≤ b ∧ b ≤ 223 then
      match rest with
      | [] => repl
      | c1 :: rest1 =>
        if contOk c1 then ((b - 192) * 64 + (c1 - 128)) :: decodeWith repl rest1
        else repl ++ decodeWith repl (c1 :: rest1)
    else if 224 ≤ b ∧ b ≤ 239 then
      match rest with
      | [] => repl
      | c1 :: rest1 =>
        if cont1Lo b ≤ c1 ∧ c1 ≤ cont1Hi b then
          match rest1 with
          | [] => repl
          | c2 :: rest2 =>
            if contOk c2 then
              ((b - 224) * 4096 + (c1 - 128) * 64 + (c2 - 128)) :: decodeWith repl rest2
            else repl ++ decodeWith repl (c2 :: rest2)
        else repl ++ decodeWith repl (c1 :: rest1)
    else if 240 ≤ b ∧ b ≤ 244 then
      match rest with
      | [] => repl
      | c1 :: rest1 =>
        if cont1Lo b ≤ c1 ∧ c1 ≤ cont1Hi b then
          match rest1 with
          | [] => repl
          | c2 :: rest2 =>
            if contOk c2 then
              match rest2 with
              | [] => repl
              | c3 :: rest3 =>
                if contOk c3 then
                  ((b - 240) * 262144 + (c1 - 128) * 4096 + (c2 - 128) * 64
                    + (c3 - 128)) :: decodeWith repl rest3
                else repl ++ decodeWith repl (c3 :: rest3)
            else repl ++ decodeWith repl (c2 :: rest2)
        else repl ++ decodeWith repl (c1 :: rest1)
    else repl ++ decodeWith repl rest

/-- Model of `bytes.decode("utf-8", errors="ignore")`. -/
def decodeIgnore (bs : List Nat) : List Nat :=
  decodeWith [] bs

/-- Model of `bytes.decode("utf-8", errors="replace")` (one replacement character
per maximal invalid subpart). -/
def decodeRepl (bs : List Nat) : List Nat :=
  decodeWith [65533] bs

/-- The truncation note
`f"\n\n[Diff truncated: original size {len(diff)} chars]\n"`
as code points. -/
def truncNote (nChars : Nat) : List Nat :=
  asciiBytes "\n\n[Diff truncated: original size " ++ natDecimalBytes nChars
    ++ asciiBytes " chars]\n"

/-- The size-bounding tail of `get_git_diff`: if the UTF-8 encoding of the
diff text exceeds `max_bytes`, keep the decode-with-ignore of the first
`max_bytes` encoded bytes and append the truncation note; otherwise return
the text unchanged. -/
def truncateDiff (diff : List Nat) (maxBytes : Nat) : List Nat :=
  if (utf8Encode diff).length > maxBytes then
    decodeIgnore ((utf8Encode diff).take maxBytes) ++ truncNote diff.length
  else diff

/-- The diff-command result handling of `get_git_diff`: `rc = 0` yields the
decoded stdout; any non-zero exit raises `subprocess.CalledProcessError`,
which the `except` arm converts into the decoded captured stdout, or the
empty text when nothing was captured (`e.stdout` falsy); the result is then
size-bounded. The function models the code from the `try` at the diff
invocation to the return. -/
def getGitDiffFromRun (rc : Nat) (stdoutBytes : List Nat) (maxBytes : Nat) :
    Except String (List Nat) :=
  let diff :=
    if rc = 0 then decodeRepl stdoutBytes
    else if stdoutBytes = [] then [] else decodeRepl stdoutBytes
  .ok (truncateDiff diff maxBytes)

/-! ## Repository-reference parsing (`parse_repo_full_name`) -/

/-- ASCII reading of the regex class `\w` (alphanumeric or underscore;
Python's `\w` further accepts non-ASCII word characters, which no claim
here exercises). -/
def isWordChar (c : Char) : Bool :=
  c.isAlphanum ∨ c = Char.ofNat 95

/-- The regex class `[\w.-]`. -/
def wordDotDash (c : Char) : Bool :=
  isWordChar c ∨ c = '.' ∨ c = '-'

/-- Does `s` match `^[\w.-]+\/[\w.-]+$` (the already-canonical
`owner/repo` shape)? The class excludes `/`, so the string must hold
exactly one `/` with nonempty all-`[\w.-]` parts on both sides.
(Python's `$` would also match before one trailing newline; the inputs
considered here carry none.) -/
def canonicalMatch (s : List Char) : Bool :=
  match splitOnChar '/' s with
  | [a, b] => !a.isEmpty && !b.isEmpty && (a ++ b).all wordDotDash
  | _ => false

/-- Remove a literal prefix, returning the remainder, or `none` when `s`
does not start with it. -/
def dropLiteral : List Char → List Char → Option (List Char)
  | [], s => some s
  | _ :: _, [] => none
  | p :: ps, c :: cs => if p = c then dropLiteral ps cs else none

/-- Consume the URL-form alternation
`(?:https?://github.com/|git@github.com:)`; `none` when no alternative is
a prefix of `s`. -/
def urlTail (s : List Char) : Option (List Char) :=
  match dropLiteral "https://github.com/".data s with
  | some r => some r
  | none =>
    match dropLiteral "http://github.com/".data s with
    | some r => some r
    | none => dropLiteral "git@github.com:".data s

/-- Remove a literal `.git` suffix, or `none` when absent. -/
def stripDotGit (t : List Char) : Option (List Char) :=
  (dropLiteral ".git".data.reverse t.reverse).map List.reverse

/-- Match the remainder against `([^/]+/[^/.]+)(?:\.git)?$` and return the
captured group. Both classes exclude `/`, so the remainder holds exactly
one `/`; the repo part is nonempty and dot-free, with an optional literal
`.git` suffix not captured. -/
def ownerRepoMatch (rest : List Char) : Option String :=
  match splitOnChar '/' rest with
  | [owner, tail] =>
    if owner.isEmpty then none
    else if !tail.isEmpty && !tail.contains '.' then
      some (String.mk (owner ++ '/' :: tail))
    else
      match stripDotGit tail with
      | some r =>
        if !r.isEmpty && !r.contains '.' then
          some (String.mk (owner ++ '/' :: r))
        else none
      | none => none
  | _ => none

/-- Model of `parse_repo_full_name`: empty input errors; an already-canonical
`owner/repo` is returned unchanged; an accepted URL form is reduced to its
captured `owner/repo` group; everything else errors. -/
def parse_repo_full_name (repoUrl : String) : Except String String :=
  if repoUrl = "" then .error "repo_url is required"
  else if canonicalMatch repoUrl.data then .ok repoUrl
  else
    match urlTail repoUrl.data with
    | some rest =>
      match ownerRepoMatch rest with
      | some group => .ok group
      | none =>
        .error ("Could not parse repository full name from '" ++ repoUrl ++ "'")
    | none =>
      .error ("Could not parse repository full name from '" ++ repoUrl ++ "'")

/-! ## Claim statements used for refutations -/

/-- A Unicode scalar value: in range and not a surrogate. -/
def validScalar (c : Nat) : Prop :=
  c < 1114112 ∧ (c < 55296 ∨ 57344 ≤ c)

instance (c : Nat) : Decidable (validScalar c) := by
  unfold validScalar
  infer_instance

/-- Is the result an error? -/
def isErrorResult {α : Type} : Except String α → Bool
  | .error _ => true
  | .ok _ => false

/-- The claim that every live `PUT` issued by `push_tree_via_api` carries
as its token the content hash the contents endpoint would report for that
path on the `head` branch (`headHash`). -/
def headTokenClaim (headHash : String → Option String)
    (localMap : List (String × LocalFile)) (remoteMap : List (String × String))
    (head baseCommitSha : String) (headExists : Bool) : Prop :=
  ∀ p pl,
    Request.putContents p pl
        ∈ (pushTreeOps localMap remoteMap head baseCommitSha headExists false).2 →
    pl.sha = headHash p

/-- The claim that every failing diff invocation other than the
differences-found exit (code 1) surfaces as an error from `get_git_diff`. -/
def diffErrorsSurfaceClaim : Prop :=
  ∀ rc stdoutBytes maxBytes, rc ≠ 0 → rc ≠ 1 →
    isErrorResult (getGitDiffFromRun rc stdoutBytes maxBytes) = true

/-- The claim that `parse_repo_full_name` is a left inverse of the HTTPS
rendering for every host. -/
def parseLeftInverseClaim : Prop :=
  ∀ host owner repo : String,
    parse_repo_full_name
        ("https://" ++ host ++ "/" ++ owner ++ "/" ++ repo ++ ".git")
      = .ok (owner ++ "/" ++ repo)

/-- The concrete local tree `{a.txt: "A", sub/b.txt: "B"}` of the plan
scenario, hashed exactly as the working-tree walk does. -/
def scenarioLocal : List (String × LocalFile) :=
  mkLocalMap [("a.txt", [65]), ("sub/b.txt", [66])]

/-- The concrete remote tree `{c.txt: hash("C")}` of the plan scenario. -/
def scenarioRemote : List (String × String) :=
  [("c.txt", gitBlobSha [67])]

/-! ## Validation of the embedding on concrete inputs -/

example : decodeIgnore [224, 65] = [65] := by decide
example : decodeRepl [224, 65] = [65533, 65] := by decide
example : decodeIgnore [224, 160] = [] := by decide
example : decodeRepl [224, 160] = [65533] := by decide
example : decodeIgnore [224, 160, 65] = [65] := by decide
example : decodeIgnore [240, 144, 65] = [65] := by decide
example : decodeIgnore [237, 160, 128] = [] := by decide
example : decodeRepl [237, 160, 128] = [65533, 65533, 65533] := by decide
example : decodeIgnore [192, 175] = [] := by decide
example : decodeRepl [192, 175] = [65533, 65533] := by decide
example : decodeIgnore [65, 195, 169, 66] = [65, 233, 66] := by decide
example : decodeIgnore [244, 143, 191, 191] = [1114111] := by decide
example : decodeRepl [245, 65] = [65533, 65] := by decide
example : decodeRepl [128, 65] = [65533, 65] := by decide
example : decodeRepl [194] = [65533] := by decide
example : decodeIgnore [226, 130, 172] = [8364] := by decide
example : utf8Encode [8364] = [226, 130, 172] := by decide
example : utf8Encode [65, 233] = [65, 195, 169] := by decide

example : parse_repo_full_name "owner/repo" = .ok "owner/repo" := by decide
example : parse_repo_full_name "https://github.com/owner/repo.git" = .ok "owner/repo" := by decide
example : parse_repo_full_name "https://github.com/owner/repo" = .ok "owner/repo" := by decide
example : parse_repo_full_name "git@github.com:owner/repo.git" = .ok "owner/repo" := by decide
example : parse_repo_full_name "http://github.com/o/r" = .ok "o/r" := by decide
example : (parse_repo_full_name "https://gitlab.com/owner/repo.git").isOk = false := by decide
example : (parse_repo_full_name "").isOk = false := by decide
example : (parse_repo_full_name "not-a-valid-url").isOk = false := by decide
example : parse_repo_full_name "owner/re.po" = .ok "owner/re.po" := by decide
example : (parse_repo_full_name "https://github.com/owner/re.po").isOk = false := by decide
example : parse_repo_full_name "https://github.com/ow.ner/repo.git" = .ok "ow.ner/repo" := by decide
example : (parse_repo_full_name "https://github.com/owner/repo.git/").isOk = false := by decide
example : (parse_repo_full_name "a/b/c").isOk = false := by decide
example : (parse_repo_full_name "https://github.com/owner/.git").isOk = false := by decide
example : parse_repo_full_name "owner/repo.git" = .ok "owner/repo.git" := by decide

example : lineActions "R100\told.txt\tnew.txt".data
    = [("delete", "old.txt"), ("add", "new.txt")] := by decide
example : lineActions "A\tnew.txt".data = [("add", "new.txt")] := by decide
example : lineActions "M\tx".data = [("add", "x")] := by decide
example : lineActions "D\ty".data = [("delete", "y")] := by decide
example : lineActions "C75\ta\tb".data = [] := by decide
example : lineActions "T\tz".data = [] := by decide
example : lineActions "".data = [] := by decide
example : lineActions "  ".data = [] := by decide
example : lineActions "R\tonly".data = [] := by decide
example : lineActions "RM\ta\tb".data = [("delete", "a"), ("add", "b")] := by decide

example : sha1Hex [] = "da39a3ee5e6b4b0d3255bfef95601890afd80709" := by decide
example : sha1Hex [97, 98, 99] = "a9993e364706816aba3e25717850c26c9cd0d89d" := by decide
example : gitBlobSha [] = "e69de29bb2d1d6434b8b29ae775ad8c2e48c5391" := by decide
example : gitBlobSha [65] = "8c7e5a667f1b771847fe88c01c3de34413a1b220" := by decide
example : base64Encode [65] = "QQ==" := by decide
example : base64Encode [65, 66] = "QUI=" := by decide
example : base64Encode [104, 101, 108, 108, 111] = "aGVsbG8=" := by decide

/-! ## C2: the content hasher -/

theorem natDecimalAux_mem_range :
    ∀ fuel n x, x ∈ natDecimalAux fuel n → 48 ≤ x ∧ x ≤ 57 := by
  intro fuel
  induction fuel with
  | zero => intro n x hx; simp [natDecimalAux] at hx
  | succ fuel ih =>
    intro n x hx
    simp only [natDecimalAux] at hx
    split at hx
    · rcases List.mem_singleton.mp hx with rfl
      omega
    · rcases List.mem_append.mp hx with h | h
      · exact ih _ _ h
      · rcases List.mem_singleton.mp h with rfl
        have : n % 10 < 10 := Nat.mod_lt _ (by omega)
        omega

theorem zero_cons_append_inj :
    ∀ (p q t u : List Nat), 0 ∉ p → 0 ∉ q →
      p ++ 0 :: t = q ++ 0 :: u → p = q ∧ t = u := by
  intro p
  induction p with
  | nil =>
    intro q t u _ hq h
    cases q with
    | nil => simpa using h
    | cons y ys =>
      simp only [List.nil_append, List.cons_append, List.cons.injEq] at h
      exact absurd (h.1 ▸ List.mem_cons_self y ys) (h.1 ▸ hq)
  | cons x xs ih =>
    intro q t u hp hq h
    cases q with
    | nil =>
      simp only [List.cons_append, List.nil_append, List.cons.injEq] at h
      exact absurd (h.1 ▸ List.mem_cons_self x xs) (h.1 ▸ hp)
    | cons y ys =>
      simp only [List.cons_append, List.cons.injEq] at h
      obtain ⟨rfl, h2⟩ := h
      have := ih ys t u (fun hx => hp (List.mem_cons_of_mem _ hx))
        (fun hx => hq (List.mem_cons_of_mem _ hx)) h2
      exact ⟨by rw [this.1], this.2⟩

theorem blobHeader_append_eq (b : List Nat) :
    blobHeader b ++ b
      = (asciiBytes "blob " ++ natDecimalBytes b.length) ++ 0 :: b := by
  simp [blobHeader, List.append_assoc]

theorem zero_not_mem_blobDigits (b : List Nat) :
    0 ∉ asciiBytes "blob " ++ natDecimalBytes b.length := by
  intro h
  rcases List.mem_append.mp h with h | h
  · revert h; decide
  · have := natDecimalAux_mem_range _ _ _ h
    omega

/-- C2: the content hash computed for a local file during tree push is the
SHA-1 digest of the length-prefixed header `"blob {len(b)}\0"` followed by
the payload (git's native blob hash — checked on concrete inputs against
git's known object ids); the computation is a pure function, so equal byte
strings always hash alike; and distinct byte strings always produce
distinct digest inputs, so a hash collision would need a collision of the
underlying digest itself. -/
theorem gitBlobSha_spec (b bp : List Nat) :
    (gitBlobSha b = sha1Hex (blobHeader b ++ b))
      ∧ (b = bp → gitBlobSha b = gitBlobSha bp)
      ∧ (b ≠ bp → blobHeader b ++ b ≠ blobHeader bp ++ bp)
      ∧ gitBlobSha [] = "e69de29bb2d1d6434b8b29ae775ad8c2e48c5391"
      ∧ gitBlobSha [65] = "8c7e5a667f1b771847fe88c01c3de34413a1b220" := by
  refine ⟨rfl, fun h => by rw [h], fun hne h => hne ?_, by decide, by decide⟩
  rw [blobHeader_append_eq, blobHeader_append_eq] at h
  exact (zero_cons_append_inj _ _ _ _ (zero_not_mem_blobDigits b)
    (zero_not_mem_blobDigits bp) h).2

/-- Witness for `gitBlobSha_spec` at `b = [65]`, `bp = [66]`. -/
theorem gitBlobSha_spec_witness :
    ([65] ≠ ([66] : List Nat))
      ∧ blobHeader [65] ++ [65] ≠ blobHeader [66] ++ [66] := by
  refine ⟨by decide, (gitBlobSha_spec [65] [66]).2.2.1 (by decide)⟩

/-! ## C1: the reconciliation planner -/

theorem alistLookup_isSome_iff {β : Type} (l : List (String × β)) (p : String) :
    (alistLookup l p).isSome ↔ p ∈ l.map Prod.fst := by
  induction l with
  | nil => simp [alistLookup]
  | cons kv rest ih =>
    obtain ⟨k, v⟩ := kv
    by_cases hk : k = p
    · subst hk; simp [alistLookup]
    · simp [alistLookup, hk, ih, Ne.symm hk]

theorem alistLookup_eq_some_mem {β : Type} {l : List (String × β)} {p : String}
    {v : β} (h : alistLookup l p = some v) : (p, v) ∈ l := by
  induction l with
  | nil => simp [alistLookup] at h
  | cons kv rest ih =>
    obtain ⟨k, w⟩ := kv
    simp only [alistLookup] at h
    split at h
    · rename_i hk
      cases h
      subst hk
      exact List.mem_cons_self _ _
    · exact List.mem_cons_of_mem _ (ih h)

theorem mem_alistLookup_of_nodup {β : Type} {l : List (String × β)} {p : String}
    {v : β} (hn : (l.map Prod.fst).Nodup) (h : (p, v) ∈ l) :
    alistLookup l p = some v := by
  induction l with
  | nil => simp at h
  | cons kv rest ih =>
    obtain ⟨k, w⟩ := kv
    simp only [List.map_cons, List.nodup_cons] at hn
    rcases List.mem_cons.mp h with h1 | h1
    · cases h1
      simp [alistLookup]
    · have hkp : k ≠ p := by
        rintro rfl
        exact hn.1 (List.mem_map.mpr ⟨(k, v), h1, rfl⟩)
      simp [alistLookup, hkp, ih hn.2 h1]

theorem mem_mapfst_filter {β : Type} (f : String × β → Bool)
    (l : List (String × β)) (p : String) :
    p ∈ (l.filter f).map Prod.fst ↔ ∃ v, (p, v) ∈ l ∧ f (p, v) = true := by
  constructor
  · intro h
    rcases List.mem_map.mp h with ⟨⟨k, v⟩, hm, hk⟩
    cases hk
    rcases List.mem_filter.mp hm with ⟨h1, h2⟩
    exact ⟨v, h1, h2⟩
  · rintro ⟨v, h1, h2⟩
    exact List.mem_map.mpr ⟨(p, v), List.mem_filter.mpr ⟨h1, h2⟩, rfl⟩

theorem nodup_mapfst_filter {β : Type} (f : String × β → Bool)
    {l : List (String × β)} (hn : (l.map Prod.fst).Nodup) :
    ((l.filter f).map Prod.fst).Nodup :=
  hn.sublist ((l.filter_sublist (p := f)).map Prod.fst)

theorem exists_of_mem_mapfst {β : Type} {l : List (String × β)} {p : String}
    (h : p ∈ l.map Prod.fst) : ∃ v, (p, v) ∈ l := by
  rcases List.mem_map.mp h with ⟨⟨k, v⟩, hm, hk⟩
  exact ⟨v, hk ▸ hm⟩

theorem mem_planAdds_iff (l : List (String × LocalFile))
    (r : List (String × String)) (p : String) :
    p ∈ planAdds l r ↔ (∃ v, (p, v) ∈ l) ∧ alistLookup r p = none := by
  rw [planAdds, mem_mapfst_filter]
  constructor
  · rintro ⟨v, h1, h2⟩
    simp only [Option.isNone_iff_eq_none] at h2
    exact ⟨⟨v, h1⟩, h2⟩
  · rintro ⟨⟨v, h1⟩, h2⟩
    exact ⟨v, h1, by simp [h2]⟩

theorem mem_planUpdates_iff (l : List (String × LocalFile))
    (r : List (String × String)) (p : String) :
    p ∈ planUpdates l r
      ↔ ∃ v, (p, v) ∈ l ∧ ∃ s, alistLookup r p = some s ∧ s ≠ v.sha := by
  rw [planUpdates, mem_mapfst_filter]
  constructor
  · rintro ⟨v, h1, h2⟩
    refine ⟨v, h1, ?_⟩
    revert h2
    cases hr : alistLookup r p with
    | none => simp
    | some s => simp
  · rintro ⟨v, h1, s, hs, hne⟩
    exact ⟨v, h1, by simp [hs, hne]⟩

theorem mem_planDeletes_iff (l : List (String × LocalFile))
    (r : List (String × String)) (p : String) :
    p ∈ planDeletes l r ↔ (∃ s, (p, s) ∈ r) ∧ alistLookup l p = none := by
  rw [planDeletes, mem_mapfst_filter]
  constructor
  · rintro ⟨s, h1, h2⟩
    simp only [Option.isNone_iff_eq_none] at h2
    exact ⟨⟨s, h1⟩, h2⟩
  · rintro ⟨⟨s, h1⟩, h2⟩
    exact ⟨s, h1, by simp [h2]⟩

/-- C1: for maps with unique keys (Python dicts), the plan emits exactly
one Add for each locally-present, remotely-absent path; exactly one Update
for each path present on both sides with differing hashes; exactly one
Delete for each remotely-present, locally-absent path; no operation at all
for a path whose hashes agree; and on the concrete scenario
(local `{a.txt: "A", sub/b.txt: "B"}`, remote `{c.txt: hash "C"}`) the plan
is Add(a.txt), Add(sub/b.txt), Delete(c.txt) with no Update. -/
theorem pushTree_plan_correct (l : List (String × LocalFile))
    (r : List (String × String)) (p : String) :
    ((l.map Prod.fst).Nodup → alistLookup r p = none → p ∈ l.map Prod.fst →
        (planAdds l r).count p = 1 ∧ p ∉ planUpdates l r ∧ p ∉ planDeletes l r)
    ∧ ((l.map Prod.fst).Nodup → ∀ info sha, alistLookup l p = some info →
        alistLookup r p = some sha → sha ≠ info.sha →
        (planUpdates l r).count p = 1 ∧ p ∉ planAdds l r ∧ p ∉ planDeletes l r)
    ∧ ((r.map Prod.fst).Nodup → alistLookup l p = none → p ∈ r.map Prod.fst →
        (planDeletes l r).count p = 1 ∧ p ∉ planAdds l r ∧ p ∉ planUpdates l r)
    ∧ ((l.map Prod.fst).Nodup → ∀ info, alistLookup l p = some info →
        alistLookup r p = some info.sha →
        p ∉ planAdds l r ∧ p ∉ planUpdates l r ∧ p ∉ planDeletes l r)
    ∧ (planAdds scenarioLocal scenarioRemote = ["a.txt", "sub/b.txt"]
        ∧ planUpdates scenarioLocal scenarioRemote = []
        ∧ planDeletes scenarioLocal scenarioRemote = ["c.txt"]) := by
  refine ⟨?_, ?_, ?_, ?_, by decide⟩
  · intro hl hr hp
    obtain ⟨v, hm⟩ := exists_of_mem_mapfst hp
    refine ⟨List.count_eq_one_of_mem (nodup_mapfst_filter _ hl) ?_, ?_, ?_⟩
    · exact (mem_planAdds_iff l r p).mpr ⟨⟨v, hm⟩, hr⟩
    · intro hmem
      rcases (mem_planUpdates_iff l r p).mp hmem with ⟨w, _, s, hs, _⟩
      rw [hr] at hs
      cases hs
    · intro hmem
      rcases (mem_planDeletes_iff l r p).mp hmem with ⟨_, hnone⟩
      have := (alistLookup_isSome_iff l p).mpr hp
      rw [hnone] at this
      cases this
  · intro hl info sha h1 h2 hne
    refine ⟨List.count_eq_one_of_mem (nodup_mapfst_filter _ hl) ?_, ?_, ?_⟩
    · exact (mem_planUpdates_iff l r p).mpr
        ⟨info, alistLookup_eq_some_mem h1, sha, h2, hne⟩
    · intro hmem
      rcases (mem_planAdds_iff l r p).mp hmem with ⟨_, hnone⟩
      rw [h2] at hnone
      cases hnone
    · intro hmem
      rcases (mem_planDeletes_iff l r p).mp hmem with ⟨_, hnone⟩
      rw [h1] at hnone
      cases hnone
  · intro hr h1 hp
    obtain ⟨s, hm⟩ := exists_of_mem_mapfst hp
    refine ⟨List.count_eq_one_of_mem (nodup_mapfst_filter _ hr) ?_, ?_, ?_⟩
    · exact (mem_planDeletes_iff l r p).mpr ⟨⟨s, hm⟩, h1⟩
    · intro hmem
      rcases (mem_planAdds_iff l r p).mp hmem with ⟨⟨v, hv⟩, _⟩
      have := (alistLookup_isSome_iff l p).mpr (List.mem_map.mpr ⟨(p, v), hv, rfl⟩)
      rw [h1] at this
      cases this
    · intro hmem
      rcases (mem_planUpdates_iff l r p).mp hmem with ⟨v, hv, _⟩
      have := (alistLookup_isSome_iff l p).mpr (List.mem_map.mpr ⟨(p, v), hv, rfl⟩)
      rw [h1] at this
      cases this
  · intro hl info h1 h2
    refine ⟨?_, ?_, ?_⟩
    · intro hmem
      rcases (mem_planAdds_iff l r p).mp hmem with ⟨_, hnone⟩
      rw [h2] at hnone
      cases hnone
    · intro hmem
      rcases (mem_planUpdates_iff l r p).mp hmem with ⟨v, hv, s, hs, hne⟩
      have := mem_alistLookup_of_nodup hl hv
      rw [h1] at this
      cases this
      rw [h2] at hs
      cases hs
      exact hne rfl
    · intro hmem
      rcases (mem_planDeletes_iff l r p).mp hmem with ⟨_, hnone⟩
      rw [h1] at hnone
      cases hnone

/-- Witness for `pushTree_plan_correct` at the scenario maps and
`p = "a.txt"`: the Add branch with its hypotheses discharged. -/
theorem pushTree_plan_correct_witness :
    (planAdds scenarioLocal scenarioRemote).count "a.txt" = 1
      ∧ "a.txt" ∉ planUpdates scenarioLocal scenarioRemote
      ∧ "a.txt" ∉ planDeletes scenarioLocal scenarioRemote :=
  (pushTree_plan_correct scenarioLocal scenarioRemote "a.txt").1
    (by decide) (by decide) (by decide)

/-! ## C3: dry-run/live parity of `push_tree_via_api` -/

theorem map_comp_eq_of_pointwise {α β γ : Type} (f g : α → β) (h : β → γ)
    (hpt : ∀ x, h (f x) = h (g x)) :
    ∀ l : List α, (l.map f).map h = (l.map g).map h := by
  intro l
  induction l with
  | nil => rfl
  | cons a t ih => simp [hpt a, ih]

theorem filterMap_eq_map_of_pointwise {α β γ : Type} (f : α → β)
    (g : β → Option γ) (k : α → γ) (hpt : ∀ x, g (f x) = some (k x)) :
    ∀ l : List α, (l.map f).filterMap g = l.map k := by
  intro l
  induction l with
  | nil => rfl
  | cons a t ih => simp [List.filterMap_cons, hpt a, ih]

/-- C3: for a fixed local tree, remote tree and head-ref state, the
operations recorded under dry-run agree, kind and path for kind and path
and in order, with those recorded under live mode; dry-run issues no
mutating remote call; and the payloads recorded under dry-run (including a
planned `create_ref`) are exactly, content and order, the mutating calls
live mode issues. -/
theorem pushTree_dry_live_parity (localMap : List (String × LocalFile))
    (remoteMap : List (String × String)) (head baseCommitSha : String)
    (headExists : Bool) :
    ((pushTreeOps localMap remoteMap head baseCommitSha headExists true).1.map
        RecOp.kindPath
      = (pushTreeOps localMap remoteMap head baseCommitSha headExists false).1.map
        RecOp.kindPath)
    ∧ (pushTreeOps localMap remoteMap head baseCommitSha headExists true).2 = []
    ∧ ((pushTreeOps localMap remoteMap head baseCommitSha headExists true).1.filterMap
        RecOp.intended
      = (pushTreeOps localMap remoteMap head baseCommitSha headExists false).2) := by
  have hauK : RecOp.kindPath
      ∘ (fun path => RecOp.putDry path (treePutPayload head localMap remoteMap path))
      = fun path => ("add_or_update", some path) := funext fun _ => rfl
  have hauK2 : RecOp.kindPath ∘ (fun path => RecOp.putLive path)
      = fun path => (("add_or_update" : String), some path) := funext fun _ => rfl
  have hdelK : RecOp.kindPath
      ∘ (fun path => RecOp.delDry path (treeDelPayload head remoteMap path))
      = fun path => ("delete", some path) := funext fun _ => rfl
  have hdelK2 : RecOp.kindPath ∘ (fun path => RecOp.delLive path)
      = fun path => (("delete" : String), some path) := funext fun _ => rfl
  have hauI : ∀ l : List String,
      (l.map fun path => RecOp.putDry path (treePutPayload head localMap remoteMap path)).filterMap
          RecOp.intended
        = l.map fun path =>
            Request.putContents path (treePutPayload head localMap remoteMap path) :=
    filterMap_eq_map_of_pointwise _ _ _ (fun _ => rfl)
  have hdelI : ∀ l : List String,
      (l.map fun path => RecOp.delDry path (treeDelPayload head remoteMap path)).filterMap
          RecOp.intended
        = l.map fun path =>
            Request.deleteContents path (treeDelPayload head remoteMap path) :=
    filterMap_eq_map_of_pointwise _ _ _ (fun _ => rfl)
  cases headExists <;>
    simp [pushTreeOps, List.map_append, List.filterMap_append, List.map_map,
      hauK, hauK2, hdelK, hdelK2, hauI, hdelI, List.filterMap_cons,
      RecOp.kindPath, RecOp.intended]

/-! ## C4: the optimistic-concurrency token of Add/Update writes -/

theorem pushTree_put_payload (localMap : List (String × LocalFile))
    (remoteMap : List (String × String)) (head baseCommitSha : String)
    (headExists : Bool) (p : String) (pl : PutPayload)
    (hmem : Request.putContents p pl
      ∈ (pushTreeOps localMap remoteMap head baseCommitSha headExists false).2) :
    pl = treePutPayload head localMap remoteMap p := by
  cases headExists <;>
    simp [pushTreeOps, List.mem_append, List.mem_map] at hmem <;>
    (rcases hmem with ⟨x, hx, rfl, rfl⟩ | ⟨x, hx, rfl, rfl⟩ <;> rfl)

/-- C4 corrected: the two publishers attach different optimistic-concurrency
tokens. `push_branch_via_api` fetches the current content hash of the path
on the `head` branch and attaches it exactly when the probe answers 200,
with base64-encoded content. `push_tree_via_api`, in contrast, attaches the
hash recorded for the path in the base-branch tree snapshot (when the path
is in that snapshot), also with base64-encoded content — it performs no
per-path fetch on `head`. -/
theorem publisher_token_amended (env : BranchEnv) (head path : String)
    (data : List Nat) (localMap : List (String × LocalFile))
    (remoteMap : List (String × String)) (baseCommitSha : String)
    (headExists : Bool) (h : env.localFile path = some data) :
    (applyAction env head ("add", path)
      = .ok ([⟨"add_or_update", path, some ()⟩],
             [.getContents head path,
              .putContents path
                ⟨"Add/Update " ++ path, base64Encode data, head,
                 if (env.contents head path).status = 200
                 then some (env.contents head path).sha else none⟩]))
    ∧ (∀ p pl, Request.putContents p pl
        ∈ (pushTreeOps localMap remoteMap head baseCommitSha headExists false).2 →
        pl.sha = alistLookup remoteMap p
          ∧ pl.content = base64Encode (localGet localMap p).bytes) := by
  constructor
  · simp [applyAction, h]
  · intro p pl hmem
    rw [pushTree_put_payload localMap remoteMap head baseCommitSha headExists p pl hmem]
    exact ⟨rfl, rfl⟩

/-- Witness for `publisher_token_amended` at a concrete environment (probe
status 404, local file `[65]`). -/
theorem publisher_token_amended_witness :
    applyAction ⟨fun _ _ => ⟨404, "s"⟩, fun _ => some [65]⟩ "h" ("add", "f")
      = .ok ([⟨"add_or_update", "f", some ()⟩],
             [.getContents "h" "f",
              .putContents "f" ⟨"Add/Update f", base64Encode [65], "h", none⟩]) := by
  have := (publisher_token_amended ⟨fun _ _ => ⟨404, "s"⟩, fun _ => some [65]⟩
    "h" "f" [65] [] [] "b" true rfl).1
  simpa using this

/-- Counterexample to C4 as stated: with remote (base) hash `"basesha"` for
`f.txt` and head-branch hash `"headsha"`, the live `PUT` of
`push_tree_via_api` carries `"basesha"`, not the hash on `head`. -/
theorem pushTree_token_counterexample :
    ¬ headTokenClaim (fun _ => some "headsha")
        [("f.txt", ⟨"localsha", [65]⟩)] [("f.txt", "basesha")]
        "feature" "base" true := by
  intro h
  exact absurd
    (h "f.txt"
      (treePutPayload "feature" [("f.txt", ⟨"localsha", [65]⟩)]
        [("f.txt", "basesha")] "f.txt")
      (by decide))
    (by decide)

/-! ## C5: idempotent deletes in `push_branch_via_api` -/

/-- C5: when the content probe on `head` answers 404 the delete is treated
as already done — the operation is recorded with a null result, no delete
call is issued, and no error is raised; when the probe answers 200 the
delete is issued with the fetched hash as its token. -/
theorem delete_404_idempotent (env : BranchEnv) (head path : String) :
    ((env.contents head path).status = 404 →
      applyAction env head ("delete", path)
        = .ok ([⟨"delete", path, none⟩], [.getContents head path]))
    ∧ ((env.contents head path).status = 200 →
      applyAction env head ("delete", path)
        = .ok ([⟨"delete", path, some ()⟩],
               [.getContents head path,
                .deleteContents path
                  ⟨"Delete " ++ path, head, some (env.contents head path).sha⟩])) := by
  constructor
  · intro h404
    simp [applyAction, h404]
  · intro h200
    simp [applyAction, h200]

/-- Witness for `delete_404_idempotent`: a 404 probe on `old.txt`. -/
theorem delete_404_idempotent_witness :
    applyAction ⟨fun _ _ => ⟨404, ""⟩, fun _ => none⟩ "h" ("delete", "old.txt")
      = .ok ([⟨"delete", "old.txt", none⟩], [.getContents "h" "old.txt"]) :=
  (delete_404_idempotent ⟨fun _ _ => ⟨404, ""⟩, fun _ => none⟩ "h" "old.txt").1 rfl

/-! ## C6: renames become delete + add -/

/-- C6: any name-status line whose status field starts with `R` and that
carries an old and a new path is classified as exactly a delete of the old
path followed by an add of the new path, whatever the similarity score;
no other kind of operation is ever produced for it. -/
theorem rename_as_delete_add (line status old_path new_path : List Char)
    (rest : List (List Char)) (hblank : line.all pySpace = false)
    (hsplit : splitOnChar (Char.ofNat 9) line = status :: old_path :: new_path :: rest)
    (hR : startsWithChar 'R' status = true) :
    lineActions line
      = [("delete", String.mk old_path), ("add", String.mk new_path)]
    ∧ ∀ a ∈ lineActions line, a.1 = "delete" ∨ a.1 = "add" := by
  have h1 : lineActions line
      = [("delete", String.mk old_path), ("add", String.mk new_path)] := by
    simp [lineActions, hblank, hsplit, hR]
  refine ⟨h1, ?_⟩
  intro a ha
  rw [h1] at ha
  rcases List.mem_cons.mp ha with rfl | ha
  · exact Or.inl rfl
  · rcases List.mem_singleton.mp ha with rfl
    exact Or.inr rfl

/-- Witness for `rename_as_delete_add` at the line `R100\told.txt\tnew.txt`. -/
theorem rename_as_delete_add_witness :
    lineActions "R100\told.txt\tnew.txt".data
      = [("delete", "old.txt"), ("add", "new.txt")] :=
  (rename_as_delete_add "R100\told.txt\tnew.txt".data "R100".data
    "old.txt".data "new.txt".data [] (by decide) (by decide) (by decide)).1

/-! ## C10: unknown statuses are silently skipped -/

/-- C10: a name-status line whose status is not `A`, `M`, `D` or
`R`-prefixed (for example `C75` or `T`) produces no action, and the whole
apply phase behaves exactly as if the line were absent: no operation
recorded for it, no remote call issued for it, no error raised. -/
theorem unknown_status_skipped (line status : List Char)
    (rest : List (List Char))
    (hsplit : splitOnChar (Char.ofNat 9) line = status :: rest)
    (hR : startsWithChar 'R' status = false)
    (hA : status ≠ ['A']) (hM : status ≠ ['M']) (hD : status ≠ ['D']) :
    lineActions line = []
    ∧ ∀ env head pre post,
        pushBranchFromLines env head (pre ++ line :: post)
          = pushBranchFromLines env head (pre ++ post) := by
  have h1 : lineActions line = [] := by
    by_cases hblank : line.all pySpace
    · simp [lineActions, hblank]
    · cases rest with
      | nil => simp [lineActions, hblank, hsplit, hR]
      | cons path t => simp [lineActions, hblank, hsplit, hR, hA, hM, hD]
  refine ⟨h1, ?_⟩
  intro env head pre post
  simp [pushBranchFromLines, h1]

/-- Witness for `unknown_status_skipped` at the copy line `C75\ta\tb`. -/
theorem unknown_status_skipped_witness :
    lineActions "C75\ta\tb".data = [] :=
  (unknown_status_skipped "C75\ta\tb".data "C75".data ["a".data, "b".data]
    (by decide) (by decide) (by decide) (by decide) (by decide)).1

/-! ## C8: exit-code handling of the diff invocation -/

/-- C8 corrected: the differences-found exit (code 1) is treated as success
and yields the captured diff output; but in fact every non-zero exit of the
diff command is handled the same way — the captured stdout (or the empty
diff when nothing was captured) is returned, size-bounded, and no exit code
of the diff command ever surfaces as an error. -/
theorem getGitDiff_exit_amended (rc maxBytes : Nat) (stdoutBytes : List Nat) :
    (stdoutBytes ≠ [] →
      getGitDiffFromRun 1 stdoutBytes maxBytes
        = .ok (truncateDiff (decodeRepl stdoutBytes) maxBytes))
    ∧ (∃ d, getGitDiffFromRun rc stdoutBytes maxBytes = .ok d) := by
  constructor
  · intro hne
    simp [getGitDiffFromRun, hne]
  · exact ⟨_, rfl⟩

/-- Witness for `getGitDiff_exit_amended` at exit code 1 with stdout
`"x"` (byte 120). -/
theorem getGitDiff_exit_amended_witness :
    getGitDiffFromRun 1 [120] 5 = .ok (truncateDiff (decodeRepl [120]) 5) :=
  (getGitDiff_exit_amended 1 5 [120]).1 (by decide)

/-- Counterexample to C8 as stated: exit code 128 with empty stdout (for
instance an unknown revision) does not surface as an error; `get_git_diff`
returns the empty diff instead. -/
theorem getGitDiff_exit_counterexample : ¬ diffErrorsSurfaceClaim := by
  intro h
  exact absurd (h 128 [] 200000 (by decide) (by decide)) (by decide)

/-! ## C9: the repository-reference parser -/

theorem contains_append (x y : List Char) (c : Char) :
    (x ++ y).contains c = (x.contains c || y.contains c) := by
  induction x with
  | nil => simp
  | cons a t ih => simp [List.contains_cons, ih, Bool.or_assoc]

theorem splitOnChar_ne_nil (sep : Char) (s : List Char) :
    splitOnChar sep s ≠ [] := by
  cases s with
  | nil => simp [splitOnChar]
  | cons c rest =>
    simp only [splitOnChar]
    split
    · simp
    · split <;> simp

theorem splitOnChar_single (sep : Char) (s : List Char)
    (h : s.contains sep = false) : splitOnChar sep s = [s] := by
  induction s with
  | nil => rfl
  | cons c rest ih =>
    simp only [List.contains_cons, Bool.or_eq_false_iff, beq_eq_false_iff_ne] at h
    simp only [splitOnChar]
    rw [if_neg (by exact fun hc => h.1 hc.symm)]
    rw [ih h.2]

theorem splitOnChar_append_sep (sep : Char) (a b : List Char)
    (ha : a.contains sep = false) (hb : b.contains sep = false) :
    splitOnChar sep (a ++ sep :: b) = [a, b] := by
  induction a with
  | nil =>
    simp [List.nil_append, splitOnChar, splitOnChar_single sep b hb]
  | cons c t ih =>
    simp only [List.contains_cons, Bool.or_eq_false_iff, beq_eq_false_iff_ne] at ha
    simp only [List.cons_append, splitOnChar, List.append_eq]
    rw [if_neg (by exact fun hc => ha.1 hc.symm), ih ha.2]

theorem exists_piece_of_mem (sep : Char) (s : List Char) (c : Char)
    (hc : c ∈ s) (hne : c ≠ sep) :
    ∃ piece ∈ splitOnChar sep s, c ∈ piece := by
  induction s with
  | nil => simp at hc
  | cons x rest ih =>
    rcases List.mem_cons.mp hc with rfl | hc2
    · simp only [splitOnChar]
      rw [if_neg hne]
      cases hr : splitOnChar sep rest with
      | nil => exact absurd hr (splitOnChar_ne_nil sep rest)
      | cons h t =>
        exact ⟨c :: h, List.mem_cons_self _ _, List.mem_cons_self _ _⟩
    · obtain ⟨piece, hp, hcp⟩ := ih hc2
      simp only [splitOnChar]
      by_cases hx : x = sep
      · rw [if_pos hx]
        exact ⟨piece, List.mem_cons_of_mem _ hp, hcp⟩
      · rw [if_neg hx]
        cases hr : splitOnChar sep rest with
        | nil => exact absurd hr (splitOnChar_ne_nil sep rest)
        | cons h t =>
          rw [hr] at hp
          rcases List.mem_cons.mp hp with rfl | hp2
          · exact ⟨x :: piece, List.mem_cons_self _ _, List.mem_cons_of_mem _ hcp⟩
          · exact ⟨piece, List.mem_cons_of_mem _ hp2, hcp⟩

theorem canonicalMatch_eq_false (s : List Char) (c : Char) (hc : c ∈ s)
    (hw : wordDotDash c = false) (hs : c ≠ '/') :
    canonicalMatch s = false := by
  obtain ⟨piece, hp, hcp⟩ := exists_piece_of_mem '/' s c hc hs
  unfold canonicalMatch
  cases hsp : splitOnChar '/' s with
  | nil => rfl
  | cons a t =>
    cases t with
    | nil => rfl
    | cons b t2 =>
      cases t2 with
      | nil =>
        rw [hsp] at hp
        simp only [Bool.and_eq_false_iff]
        right
        rw [List.all_eq_false]
        refine ⟨c, ?_, by simp [hw]⟩
        rcases List.mem_cons.mp hp with rfl | hp2
        · exact List.mem_append_left _ hcp
        · rcases List.mem_singleton.mp hp2 with rfl
          exact List.mem_append_right _ hcp
      | cons d t3 => rfl

theorem dropLiteral_self_append (p s : List Char) :
    dropLiteral p (p ++ s) = some s := by
  induction p with
  | nil => rfl
  | cons c t ih => simp [dropLiteral, ih]

theorem ownerRepoMatch_plain (owner repo : List Char)
    (ho1 : owner ≠ []) (ho2 : owner.contains '/' = false)
    (hr1 : repo ≠ []) (hr2 : repo.contains '/' = false)
    (hr3 : repo.contains '.' = false) :
    ownerRepoMatch (owner ++ '/' :: repo)
      = some (String.mk (owner ++ '/' :: repo)) := by
  have hoe : owner.isEmpty = false := by
    cases owner with
    | nil => exact absurd rfl ho1
    | cons c t => rfl
  have hre : repo.isEmpty = false := by
    cases repo with
    | nil => exact absurd rfl hr1
    | cons c t => rfl
  have hr3m : ('.' : Char) ∉ repo := by simpa using hr3
  unfold ownerRepoMatch
  rw [splitOnChar_append_sep '/' owner repo ho2 hr2]
  simp [hoe, hre, hr3m]

theorem ownerRepoMatch_gitsuffix (owner repo : List Char)
    (ho1 : owner ≠ []) (ho2 : owner.contains '/' = false)
    (hr1 : repo ≠ []) (hr2 : repo.contains '/' = false)
    (hr3 : repo.contains '.' = false) :
    ownerRepoMatch (owner ++ '/' :: (repo ++ ".git".data))
      = some (String.mk (owner ++ '/' :: repo)) := by
  have htail : (repo ++ ".git".data).contains '/' = false := by
    rw [contains_append, hr2]
    decide
  have hdot : (repo ++ ".git".data).contains '.' = true := by
    rw [contains_append]
    have : (".git".data.contains '.') = true := by decide
    rw [this, Bool.or_true]
  have hoe : owner.isEmpty = false := by
    cases owner with
    | nil => exact absurd rfl ho1
    | cons c t => rfl
  have hre : repo.isEmpty = false := by
    cases repo with
    | nil => exact absurd rfl hr1
    | cons c t => rfl
  have hstrip : stripDotGit (repo ++ ".git".data) = some repo := by
    unfold stripDotGit
    rw [List.reverse_append, dropLiteral_self_append]
    simp
  have hdotm : ('.' : Char) ∈ repo ++ ".git".data :=
    List.mem_append_right _ (by decide)
  have hr3m : ('.' : Char) ∉ repo := by simpa using hr3
  unfold ownerRepoMatch
  rw [splitOnChar_append_sep '/' owner _ ho2 htail]
  simp [hoe, hre, hdotm, hstrip, hr3m]

theorem parse_repo_url_core (s : String) (rest : List Char) (g : String)
    (hne : s ≠ "") (hcanon : canonicalMatch s.data = false)
    (hurl : urlTail s.data = some rest)
    (hmatch : ownerRepoMatch rest = some g) :
    parse_repo_full_name s = .ok g := by
  unfold parse_repo_full_name
  rw [if_neg hne]
  simp [hcanon, hurl, hmatch]

/-- C9 corrected: the parser is a left inverse of the three accepted
shapes only for host `github.com` and for owner/repo names the patterns
accept: owner nonempty without `/`, repo nonempty without `/` or `.`
(URL forms; the optional `.git` suffix is dropped); an already-canonical
`owner/repo` is returned unchanged; empty input and inputs matching no
pattern raise the invalid-reference error. -/
theorem parse_repo_full_name_amended (owner repo : String)
    (ho1 : owner.data ≠ []) (ho2 : owner.data.contains '/' = false)
    (hr1 : repo.data ≠ []) (hr2 : repo.data.contains '/' = false)
    (hr3 : repo.data.contains '.' = false) :
    parse_repo_full_name ("https://github.com/" ++ owner ++ "/" ++ repo ++ ".git")
        = .ok (owner ++ "/" ++ repo)
    ∧ parse_repo_full_name ("https://github.com/" ++ owner ++ "/" ++ repo)
        = .ok (owner ++ "/" ++ repo)
    ∧ parse_repo_full_name ("http://github.com/" ++ owner ++ "/" ++ repo ++ ".git")
        = .ok (owner ++ "/" ++ repo)
    ∧ parse_repo_full_name ("git@github.com:" ++ owner ++ "/" ++ repo ++ ".git")
        = .ok (owner ++ "/" ++ repo)
    ∧ (∀ s : String, canonicalMatch s.data = true → parse_repo_full_name s = .ok s)
    ∧ parse_repo_full_name "" = .error "repo_url is required" := by
  have hslash : ("/" : String).data = ['/'] := rfl
  have hg2 : (owner ++ "/" ++ repo).data = owner.data ++ '/' :: repo.data := by
    simp [String.data_append, hslash]
  have hmkeq : String.mk (owner.data ++ '/' :: repo.data) = owner ++ "/" ++ repo := by
    rw [← hg2]
  have hmatchGit :
      ownerRepoMatch (owner.data ++ '/' :: (repo.data ++ ".git".data))
        = some (owner ++ "/" ++ repo) := by
    rw [ownerRepoMatch_gitsuffix owner.data repo.data ho1 ho2 hr1 hr2 hr3, hmkeq]
  have hmatchPlain :
      ownerRepoMatch (owner.data ++ '/' :: repo.data)
        = some (owner ++ "/" ++ repo) := by
    rw [ownerRepoMatch_plain owner.data repo.data ho1 ho2 hr1 hr2 hr3, hmkeq]
  refine ⟨?_, ?_, ?_, ?_, ?_, by rfl⟩
  · have hd : ("https://github.com/" ++ owner ++ "/" ++ repo ++ ".git").data
        = "https://github.com/".data
            ++ (owner.data ++ '/' :: (repo.data ++ ".git".data)) := by
      simp [String.data_append, hslash]
    have hne : ("https://github.com/" ++ owner ++ "/" ++ repo ++ ".git") ≠ "" := by
      intro h
      have h2 := congrArg String.data h
      rw [hd] at h2
      rcases List.append_eq_nil.mp h2 with ⟨h3, _⟩
      exact absurd h3 (by decide)
    have hcanon : canonicalMatch
        ("https://github.com/" ++ owner ++ "/" ++ repo ++ ".git").data = false := by
      refine canonicalMatch_eq_false _ ':' ?_ (by decide) (by decide)
      rw [hd]
      exact List.mem_append_left _ (by decide)
    have hurl : urlTail ("https://github.com/" ++ owner ++ "/" ++ repo ++ ".git").data
        = some (owner.data ++ '/' :: (repo.data ++ ".git".data)) := by
      unfold urlTail
      rw [hd, dropLiteral_self_append]
    exact parse_repo_url_core _ _ _ hne hcanon hurl hmatchGit
  · have hd : ("https://github.com/" ++ owner ++ "/" ++ repo).data
        = "https://github.com/".data ++ (owner.data ++ '/' :: repo.data) := by
      simp [String.data_append, hslash]
    have hne : ("https://github.com/" ++ owner ++ "/" ++ repo) ≠ "" := by
      intro h
      have h2 := congrArg String.data h
      rw [hd] at h2
      rcases List.append_eq_nil.mp h2 with ⟨h3, _⟩
      exact absurd h3 (by decide)
    have hcanon : canonicalMatch
        ("https://github.com/" ++ owner ++ "/" ++ repo).data = false := by
      refine canonicalMatch_eq_false _ ':' ?_ (by decide) (by decide)
      rw [hd]
      exact List.mem_append_left _ (by decide)
    have hurl : urlTail ("https://github.com/" ++ owner ++ "/" ++ repo).data
        = some (owner.data ++ '/' :: repo.data) := by
      unfold urlTail
      rw [hd, dropLiteral_self_append]
    exact parse_repo_url_core _ _ _ hne hcanon hurl hmatchPlain
  · have hd : ("http://github.com/" ++ owner ++ "/" ++ repo ++ ".git").data
        = "http://github.com/".data
            ++ (owner.data ++ '/' :: (repo.data ++ ".git".data)) := by
      simp [String.data_append, hslash]
    have hne : ("http://github.com/" ++ owner ++ "/" ++ repo ++ ".git") ≠ "" := by
      intro h
      have h2 := congrArg String.data h
      rw [hd] at h2
      rcases List.append_eq_nil.mp h2 with ⟨h3, _⟩
      exact absurd h3 (by decide)
    have hcanon : canonicalMatch
        ("http://github.com/" ++ owner ++ "/" ++ repo ++ ".git").data = false := by
      refine canonicalMatch_eq_false _ ':' ?_ (by decide) (by decide)
      rw [hd]
      exact List.mem_append_left _ (by decide)
    have hurl : urlTail ("http://github.com/" ++ owner ++ "/" ++ repo ++ ".git").data
        = some (owner.data ++ '/' :: (repo.data ++ ".git".data)) := by
      unfold urlTail
      rw [hd]
      have e1 : dropLiteral "https://github.com/".data
          ("http://github.com/".data
            ++ (owner.data ++ '/' :: (repo.data ++ ".git".data))) = none := rfl
      rw [e1, dropLiteral_self_append]
    exact parse_repo_url_core _ _ _ hne hcanon hurl hmatchGit
  · have hd : ("git@github.com:" ++ owner ++ "/" ++ repo ++ ".git").data
        = "git@github.com:".data
            ++ (owner.data ++ '/' :: (repo.data ++ ".git".data)) := by
      simp [String.data_append, hslash]
    have hne : ("git@github.com:" ++ owner ++ "/" ++ repo ++ ".git") ≠ "" := by
      intro h
      have h2 := congrArg String.data h
      rw [hd] at h2
      rcases List.append_eq_nil.mp h2 with ⟨h3, _⟩
      exact absurd h3 (by decide)
    have hcanon : canonicalMatch
        ("git@github.com:" ++ owner ++ "/" ++ repo ++ ".git").data = false := by
      refine canonicalMatch_eq_false _ ':' ?_ (by decide) (by decide)
      rw [hd]
      exact List.mem_append_left _ (by decide)
    have hurl : urlTail ("git@github.com:" ++ owner ++ "/" ++ repo ++ ".git").data
        = some (owner.data ++ '/' :: (repo.data ++ ".git".data)) := by
      unfold urlTail
      rw [hd]
      have e1 : dropLiteral "https://github.com/".data
          ("git@github.com:".data
            ++ (owner.data ++ '/' :: (repo.data ++ ".git".data))) = none := rfl
      have e2 : dropLiteral "http://github.com/".data
          ("git@github.com:".data
            ++ (owner.data ++ '/' :: (repo.data ++ ".git".data))) = none := rfl
      rw [e1, e2, dropLiteral_self_append]
    exact parse_repo_url_core _ _ _ hne hcanon hurl hmatchGit
  · intro s hc
    have hsne : s ≠ "" := by
      intro h
      rw [h] at hc
      exact absurd hc (by decide)
    unfold parse_repo_full_name
    rw [if_neg hsne]
    simp [hc]

/-- Witness for `parse_repo_full_name_amended` at `owner`/`repo`. -/
theorem parse_repo_full_name_amended_witness :
    parse_repo_full_name ("https://github.com/" ++ "owner" ++ "/" ++ "repo" ++ ".git")
      = .ok ("owner" ++ "/" ++ "repo") :=
  (parse_repo_full_name_amended "owner" "repo" (by decide) (by decide)
    (by decide) (by decide) (by decide)).1

/-- Counterexample to C9 as stated: the host is fixed to `github.com`
(parsing a `gitlab.com` URL errors), and a repo name containing a dot is
rejected in URL form even though the claim ranges over every repo. -/
theorem parse_repo_full_name_counterexample :
    ¬ parseLeftInverseClaim
    ∧ parse_repo_full_name "https://github.com/owner/re.po" ≠ .ok "owner/re.po" := by
  constructor
  · intro h
    exact absurd (h "gitlab.com" "owner" "repo") (by decide)
  · decide

/-! ## C7: size-bounded diff truncation on UTF-8 boundaries -/

theorem utf8Encode_nil : utf8Encode [] = [] := rfl

theorem utf8Encode_cons (c : Nat) (l : List Nat) :
    utf8Encode (c :: l) = utf8EncodeChar c ++ utf8Encode l := by
  simp [utf8Encode]

theorem utf8EncodeChar_len1 {c : Nat} (h : c < 128) :
    (utf8EncodeChar c).length = 1 := by
  simp [utf8EncodeChar, h]

theorem utf8EncodeChar_len2 {c : Nat} (h1 : 128 ≤ c) (h2 : c < 2048) :
    (utf8EncodeChar c).length = 2 := by
  simp [utf8EncodeChar, show ¬ c < 128 by omega, h2]

theorem utf8EncodeChar_len3 {c : Nat} (h1 : 2048 ≤ c) (h2 : c < 65536) :
    (utf8EncodeChar c).length = 3 := by
  simp [utf8EncodeChar, show ¬ c < 128 by omega, show ¬ c < 2048 by omega, h2]

theorem utf8EncodeChar_len4 {c : Nat} (h1 : 65536 ≤ c) :
    (utf8EncodeChar c).length = 4 := by
  simp [utf8EncodeChar, show ¬ c < 128 by omega, show ¬ c < 2048 by omega,
    show ¬ c < 65536 by omega]

theorem decodeIgnore_bound_aux (n : Nat) : ∀ bs : List Nat, bs.length ≤ n →
    (utf8Encode (decodeWith [] bs)).length ≤ bs.length
    ∧ ∀ c ∈ decodeWith [] bs, validScalar c := by
  induction n with
  | zero =>
    intro bs h
    have hb : bs = [] := List.eq_nil_of_length_eq_zero (Nat.le_antisymm h (Nat.zero_le _))
    subst hb
    simp [decodeWith, utf8Encode]
  | succ n ih =>
    intro bs hlen
    cases bs with
    | nil => simp [decodeWith, utf8Encode]
    | cons b rest =>
      simp only [List.length_cons] at hlen
      have hrn : rest.length ≤ n := by omega
      by_cases h1 : b < 128
      · have hr := ih rest hrn
        rw [decodeWith.eq_def]
        simp only [if_pos h1]
        constructor
        · rw [utf8Encode_cons, List.length_append, utf8EncodeChar_len1 h1,
            List.length_cons]
          omega
        · intro c hc
          rcases List.mem_cons.mp hc with rfl | hc2
          · exact ⟨by omega, Or.inl (by omega)⟩
          · exact hr.2 c hc2
      · by_cases h2 : 194 ≤ b ∧ b ≤ 223
        · cases rest with
          | nil =>
            simp [decodeWith.eq_def, h1, h2, utf8Encode]
          | cons c1 rest1 =>
            have hr1n : rest1.length ≤ n := by
              simp only [List.length_cons] at hrn
              omega
            by_cases hc1 : contOk c1 = true
            · have hb1 : 128 ≤ c1 ∧ c1 ≤ 191 := by simpa [contOk] using hc1
              have hr := ih rest1 hr1n
              rw [decodeWith.eq_def]
              simp only [if_neg h1, if_pos h2, if_pos hc1]
              constructor
              · rw [utf8Encode_cons, List.length_append,
                  utf8EncodeChar_len2 (by omega) (by omega)]
                simp only [List.length_cons]
                omega
              · intro c hc
                rcases List.mem_cons.mp hc with rfl | hc2
                · exact ⟨by omega, Or.inl (by omega)⟩
                · exact hr.2 c hc2
            · have hr := ih (c1 :: rest1) hrn
              rw [decodeWith.eq_def]
              simp only [if_neg h1, if_pos h2, if_neg hc1, List.nil_append]
              constructor
              · simp only [List.length_cons] at hr ⊢
                omega
              · exact hr.2
        · by_cases h3 : 224 ≤ b ∧ b ≤ 239
          · cases rest with
            | nil => simp [decodeWith.eq_def, h1, h2, h3, utf8Encode]
            | cons c1 rest1 =>
              have hr1n : rest1.length ≤ n := by
                simp only [List.length_cons] at hrn
                omega
              by_cases hcond : cont1Lo b ≤ c1 ∧ c1 ≤ cont1Hi b
              · have hlo : 128 ≤ c1 :=
                  le_trans (by unfold cont1Lo; split_ifs <;> omega) hcond.1
                have hhi : c1 ≤ 191 :=
                  le_trans hcond.2 (by unfold cont1Hi; split_ifs <;> omega)
                cases rest1 with
                | nil => simp [decodeWith.eq_def, h1, h2, h3, hcond, utf8Encode]
                | cons c2 rest2 =>
                  have hr2n : rest2.length ≤ n := by
                    simp only [List.length_cons] at hr1n
                    omega
                  by_cases hc2 : contOk c2 = true
                  · have hb2 : 128 ≤ c2 ∧ c2 ≤ 191 := by simpa [contOk] using hc2
                    have hr := ih rest2 hr2n
                    have hmin : 2048 ≤ (b - 224) * 4096 + (c1 - 128) * 64 + (c2 - 128) := by
                      by_cases hb224 : b = 224
                      · have : 160 ≤ c1 := by
                          have h5 := hcond.1
                          rw [hb224] at h5
                          simpa [cont1Lo] using h5
                        omega
                      · have : 225 ≤ b := by omega
                        omega
                    have hmax : (b - 224) * 4096 + (c1 - 128) * 64 + (c2 - 128) < 65536 := by
                      omega
                    rw [decodeWith.eq_def]
                    simp only [if_neg h1, if_neg h2, if_pos h3, if_pos hcond,
                      if_pos hc2]
                    constructor
                    · rw [utf8Encode_cons, List.length_append,
                        utf8EncodeChar_len3 hmin hmax]
                      simp only [List.length_cons]
                      omega
                    · intro c hc
                      rcases List.mem_cons.mp hc with rfl | hcc
                      · refine ⟨by omega, ?_⟩
                        by_cases hb237 : b = 237
                        · have : c1 ≤ 159 := by
                            have h5 := hcond.2
                            rw [hb237] at h5
                            simpa [cont1Hi] using h5
                          subst hb237
                          left
                          omega
                        · by_cases hble : b ≤ 236
                          · left
                            omega
                          · right
                            omega
                      · exact hr.2 c hcc
                  · have hr := ih (c2 :: rest2) hr1n
                    rw [decodeWith.eq_def]
                    simp only [if_neg h1, if_neg h2, if_pos h3, if_pos hcond,
                      if_neg hc2, List.nil_append]
                    constructor
                    · simp only [List.length_cons] at hr ⊢
                      omega
                    · exact hr.2
              · have hr := ih (c1 :: rest1) hrn
                rw [decodeWith.eq_def]
                simp only [if_neg h1, if_neg h2, if_pos h3, if_neg hcond,
                  List.nil_append]
                constructor
                · simp only [List.length_cons] at hr ⊢
                  omega
                · exact hr.2
          · by_cases h4 : 240 ≤ b ∧ b ≤ 244
            · cases rest with
              | nil => simp [decodeWith.eq_def, h1, h2, h3, h4, utf8Encode]
              | cons c1 rest1 =>
                have hr1n : rest1.length ≤ n := by
                  simp only [List.length_cons] at hrn
                  omega
                by_cases hcond : cont1Lo b ≤ c1 ∧ c1 ≤ cont1Hi b
                · have hlo : 128 ≤ c1 :=
                    le_trans (by unfold cont1Lo; split_ifs <;> omega) hcond.1
                  have hhi : c1 ≤ 191 :=
                    le_trans hcond.2 (by unfold cont1Hi; split_ifs <;> omega)
                  cases rest1 with
                  | nil => simp [decodeWith.eq_def, h1, h2, h3, h4, hcond, utf8Encode]
                  | cons c2 rest2 =>
                    have hr2n : rest2.length ≤ n := by
                      simp only [List.length_cons] at hr1n
                      omega
                    by_cases hc2 : contOk c2 = true
                    · have hb2 : 128 ≤ c2 ∧ c2 ≤ 191 := by simpa [contOk] using hc2
                      cases rest2 with
                      | nil =>
                        simp [decodeWith.eq_def, h1, h2, h3, h4, hcond, hc2, utf8Encode]
                      | cons c3 rest3 =>
                        have hr3n : rest3.length ≤ n := by
                          simp only [List.length_cons] at hr2n
                          omega
                        by_cases hc3 : contOk c3 = true
                        · have hb3 : 128 ≤ c3 ∧ c3 ≤ 191 := by simpa [contOk] using hc3
                          have hr := ih rest3 hr3n
                          have hmin : 65536 ≤ (b - 240) * 262144 + (c1 - 128) * 4096
                              + (c2 - 128) * 64 + (c3 - 128) := by
                            by_cases hb240 : b = 240
                            · have : 144 ≤ c1 := by
                                have h5 := hcond.1
                                rw [hb240] at h5
                                simpa [cont1Lo] using h5
                              omega
                            · have : 241 ≤ b := by omega
                              omega
                          have hmax : (b - 240) * 262144 + (c1 - 128) * 4096
                              + (c2 - 128) * 64 + (c3 - 128) < 1114112 := by
                            by_cases hb244 : b = 244
                            · have : c1 ≤ 143 := by
                                have h5 := hcond.2
                                rw [hb244] at h5
                                simpa [cont1Hi] using h5
                              omega
                            · have : b ≤ 243 := by omega
                              omega
                          rw [decodeWith.eq_def]
                          simp only [if_neg h1, if_neg h2, if_neg h3, if_pos h4,
                            if_pos hcond, if_pos hc2, if_pos hc3]
                          constructor
                          · rw [utf8Encode_cons, List.length_append,
                              utf8EncodeChar_len4 hmin]
                            simp only [List.length_cons]
                            omega
                          · intro c hc
                            rcases List.mem_cons.mp hc with rfl | hcc
                            · exact ⟨hmax, Or.inr (by omega)⟩
                            · exact hr.2 c hcc
                        · have hr := ih (c3 :: rest3) hr2n
                          rw [decodeWith.eq_def]
                          simp only [if_neg h1, if_neg h2, if_neg h3, if_pos h4,
                            if_pos hcond, if_pos hc2, if_neg hc3, List.nil_append]
                          constructor
                          · simp only [List.length_cons] at hr ⊢
                            omega
                          · exact hr.2
                    · have hr := ih (c2 :: rest2) hr1n
                      rw [decodeWith.eq_def]
                      simp only [if_neg h1, if_neg h2, if_neg h3, if_pos h4,
                        if_pos hcond, if_neg hc2, List.nil_append]
                      constructor
                      · simp only [List.length_cons] at hr ⊢
                        omega
                      · exact hr.2
                · have hr := ih (c1 :: rest1) hrn
                  rw [decodeWith.eq_def]
                  simp only [if_neg h1, if_neg h2, if_neg h3, if_pos h4,
                    if_neg hcond, List.nil_append]
                  constructor
                  · simp only [List.length_cons] at hr ⊢
                    omega
                  · exact hr.2
            · have hr := ih rest hrn
              rw [decodeWith.eq_def]
              simp only [if_neg h1, if_neg h2, if_neg h3, if_neg h4,
                List.nil_append]
              constructor
              · simp only [List.length_cons]
                omega
              · exact hr.2

theorem decodeIgnore_bound (bs : List Nat) :
    (utf8Encode (decodeIgnore bs)).length ≤ bs.length
    ∧ ∀ c ∈ decodeIgnore bs, validScalar c :=
  decodeIgnore_bound_aux bs.length bs le_rfl

theorem utf8Encode_replicate_97 (n : Nat) :
    utf8Encode (List.replicate n 97) = List.replicate n 97 := by
  induction n with
  | zero => rfl
  | succ n ih =>
    rw [List.replicate_succ, utf8Encode_cons, ih]
    simp [utf8EncodeChar]

theorem decodeIgnore_replicate_97 (n : Nat) :
    decodeIgnore (List.replicate n 97) = List.replicate n 97 := by
  induction n with
  | zero => rfl
  | succ n ih =>
    rw [List.replicate_succ]
    unfold decodeIgnore at ih ⊢
    rw [decodeWith.eq_def]
    simp only [if_pos (by omega : (97 : Nat) < 128), ih]

theorem truncNote_valid (n : Nat) : ∀ c ∈ truncNote n, validScalar c := by
  intro c hc
  unfold truncNote at hc
  rcases List.mem_append.mp hc with hc1 | hc2
  · rcases List.mem_append.mp hc1 with hc3 | hc4
    · exact (by decide :
        ∀ x ∈ asciiBytes "\n\n[Diff truncated: original size ", validScalar x) c hc3
    · have := natDecimalAux_mem_range _ _ _ hc4
      exact ⟨by omega, Or.inl (by omega)⟩
  · exact (by decide : ∀ x ∈ asciiBytes " chars]\n", validScalar x) c hc2

/-- C7: when the UTF-8 size of the diff exceeds `max_bytes`, the returned
text is the decode-with-ignore of the first `max_bytes` encoded bytes
followed by the truncation note carrying the original size (its character
count); the truncated part re-encodes to at most `max_bytes` bytes (no
multi-byte code point is split at the boundary) and every code point of the
returned text is a valid Unicode scalar; a diff at or under the limit is
returned unchanged; and the concrete 300,000-byte diff at
`max_bytes = 100,000` yields exactly 100,000 bytes plus the note naming
300,000. -/
theorem get_git_diff_truncation (diff : List Nat) (maxBytes : Nat) :
    ((utf8Encode diff).length > maxBytes →
      truncateDiff diff maxBytes
          = decodeIgnore ((utf8Encode diff).take maxBytes) ++ truncNote diff.length
        ∧ (utf8Encode (decodeIgnore ((utf8Encode diff).take maxBytes))).length
            ≤ maxBytes
        ∧ ∀ c ∈ truncateDiff diff maxBytes, validScalar c)
    ∧ ((utf8Encode diff).length ≤ maxBytes → truncateDiff diff maxBytes = diff)
    ∧ (truncateDiff (List.replicate 300000 97) 100000
          = List.replicate 100000 97 ++ truncNote 300000
        ∧ (utf8Encode (List.replicate 100000 97)).length ≤ 100000) := by
  refine ⟨?_, ?_, ?_, ?_⟩
  · intro h
    have he : truncateDiff diff maxBytes
        = decodeIgnore ((utf8Encode diff).take maxBytes) ++ truncNote diff.length := by
      simp [truncateDiff, h]
    have hlen : (utf8Encode (decodeIgnore ((utf8Encode diff).take maxBytes))).length
        ≤ maxBytes := by
      refine le_trans (decodeIgnore_bound _).1 ?_
      rw [List.length_take]
      omega
    refine ⟨he, hlen, ?_⟩
    intro c hc
    rw [he] at hc
    rcases List.mem_append.mp hc with hc1 | hc2
    · exact (decodeIgnore_bound _).2 c hc1
    · exact truncNote_valid _ c hc2
  · intro h
    simp [truncateDiff, show ¬ (utf8Encode diff).length > maxBytes by omega]
  · have e1 := utf8Encode_replicate_97 300000
    have cond : (utf8Encode (List.replicate 300000 (97 : Nat))).length > 100000 := by
      rw [e1, List.length_replicate]
      omega
    unfold truncateDiff
    rw [if_pos cond, e1, List.take_replicate]
    have hmin : min 100000 300000 = 100000 := by omega
    rw [hmin, decodeIgnore_replicate_97, List.length_replicate]
  · rw [utf8Encode_replicate_97, List.length_replicate]

/-- Witness for `get_git_diff_truncation`: an under-limit diff is returned
unchanged, and a 3-byte diff at `max_bytes = 2` is truncated to the
boundary with the note for length 3. -/
theorem get_git_diff_truncation_witness :
    truncateDiff [97, 98] 5 = [97, 98]
    ∧ truncateDiff [97, 98, 99] 2
        = decodeIgnore ((utf8Encode [97, 98, 99]).take 2) ++ truncNote 3 :=
  ⟨(get_git_diff_truncation [97, 98] 5).2.1 (by decide),
   ((get_git_diff_truncation [97, 98, 99] 2).1 (by decide)).1⟩
